import Mathlib

/-!
Shallow embedding of the terramate `eval` value tree (src/unnamed/part_000)
and of the `errors.List` diagnostic aggregator (whose implementation is not
in src; only its tests, src/unnamed/part_001, are — that part is modelled
from the spec).

Modelling conventions:
* Go maps (`map[string]Value`, `map[string]cty.Value`) are association
  lists; iteration order of a Go map is unspecified, so we fix the
  canonical order to be insertion order: `insertKeys` replaces the first
  occurrence of an existing key in place and appends a fresh key at the
  end.  Go guarantees key uniqueness, which here is the decidable
  invariant `wfKeys`.
* A Go panic is modelled by `Option`/a sum: `none` means the call panics
  and produces no value.
* `cty.Value` is external (go-cty).  We model exactly the fragment the
  code uses: a value is either non-object-typed (`scalar`, carrying an
  opaque representation), a known non-null object (`obj` with named
  fields), or an object-typed null/unknown value; every value carries its
  set of marks.  `Mark` adds a mark, `Unmark` strips all top-level marks,
  `AsValueMap` yields the fields of a known, non-null, unmarked object and
  panics otherwise (per the repository's own comment: a marked value
  "must be unmarked before use with any hashicorp API otherwise it
  panics").
-/

/-- Model of `project.Path`, the origin/provenance identifier. -/
abbrev ProjPath := String

/-- Model of the fragment of `cty.Value` used by the code.  `marks` is the
set of marks attached to the top level of the value (modelled as a
duplicate-free list; `mark` inserts only if absent). -/
inductive CtyVal : Type where
  | scalar (repr : String) (marks : List ProjPath)
  | obj (fields : List (String × CtyVal)) (marks : List ProjPath)
  | nullObj (marks : List ProjPath)
  | unknownObj (marks : List ProjPath)
deriving Repr

/-- `val.Type().IsObjectType()`: true exactly for object-typed values,
including null and unknown ones. -/
def CtyVal.isObjectType : CtyVal → Bool
  | .scalar _ _ => false
  | .obj _ _ => true
  | .nullObj _ => true
  | .unknownObj _ => true

/-- `val.IsNull()`. -/
def CtyVal.isNull : CtyVal → Bool
  | .nullObj _ => true
  | _ => false

/-- `val.IsKnown()`. -/
def CtyVal.isKnown : CtyVal → Bool
  | .unknownObj _ => false
  | _ => true

/-- The top-level marks of a value. -/
def CtyVal.topMarks : CtyVal → List ProjPath
  | .scalar _ m => m
  | .obj _ m => m
  | .nullObj m => m
  | .unknownObj m => m

/-- `val.Mark(o)`: add `o` to the top-level mark set. -/
def CtyVal.mark : CtyVal → ProjPath → CtyVal
  | .scalar s m, o => .scalar s (if o ∈ m then m else m ++ [o])
  | .obj fs m, o => .obj fs (if o ∈ m then m else m ++ [o])
  | .nullObj m, o => .nullObj (if o ∈ m then m else m ++ [o])
  | .unknownObj m, o => .unknownObj (if o ∈ m then m else m ++ [o])

/-- `val.Unmark()`: the value with all top-level marks stripped (the `ok`
boolean returned by go-cty is discarded by `CtyValue.Raw`). -/
def CtyVal.unmark : CtyVal → CtyVal
  | .scalar s _ => .scalar s []
  | .obj fs _ => .obj fs []
  | .nullObj _ => .nullObj []
  | .unknownObj _ => .unknownObj []

/-- `val.AsValueMap()`: the named fields of a known, non-null, unmarked
object value; `none` models the panic on anything else. -/
def CtyVal.asValueMap : CtyVal → Option (List (String × CtyVal))
  | .obj fs [] => some fs
  | _ => none

/-- Model of `eval.Value`, the closed two-variant abstraction
(`*eval.Object` or `eval.CtyValue`).  `objV origin keys` is an `Object`
(origin plus its `Keys` map); `ctyV origin val` is a `CtyValue` wrapper
(its `origin` field plus the wrapped — possibly marked — `cty.Value`). -/
inductive Value : Type where
  | objV (origin : ProjPath) (keys : List (String × Value))
  | ctyV (origin : ProjPath) (val : CtyVal)
deriving Repr

/-- `Value.Origin()`. -/
def Value.origin : Value → ProjPath
  | .objV g _ => g
  | .ctyV g _ => g

/-- `Value.IsObject()`: true for `Object`, false for `CtyValue`. -/
def Value.isObject : Value → Bool
  | .objV _ _ => true
  | .ctyV _ _ => false

/-- Lookup in the `Keys` map: `v, ok := obj.Keys[key]`. -/
def lookupKeys : List (String × Value) → String → Option Value
  | [], _ => none
  | (k, v) :: rest, key => if k = key then some v else lookupKeys rest key

/-- Map update `obj.Keys[key] = value` (the body of `Object.Set`): replace
the first binding of an existing key in place, append a fresh key. -/
def insertKeys : List (String × Value) → String → Value → List (String × Value)
  | [], key, v => [(key, v)]
  | (k, w) :: rest, key, v =>
    if k = key then (k, v) :: rest else (k, w) :: insertKeys rest key v

/-- Map deletion `delete(obj.Keys, key)`: removes the binding of `key`. -/
def eraseKeys : List (String × Value) → String → List (String × Value)
  | [], _ => []
  | (k, w) :: rest, key =>
    if k = key then rest else (k, w) :: eraseKeys rest key

/-- Uniqueness of keys at one level, Go's `map` guarantee. -/
def nodupKeys (keys : List (String × Value)) : Bool :=
  (keys.map Prod.fst).Nodup

/-- `Object.GetKeyPath` on the `Keys` map of the receiver.  The Go code
indexes `path[0]`, so an empty path panics; the `ObjectPath` invariant
says the empty path is never passed, and every theorem below assumes a
non-empty path — the `[]` equation is an arbitrary placeholder. -/
def getKeyPath : List (String × Value) → List String → Option Value
  | _, [] => none
  | keys, key :: next =>
    match lookupKeys keys key with
    | none => none
    | some v =>
      if next = [] then some v
      else
        match v with
        | .objV _ subkeys => getKeyPath subkeys next
        | .ctyV _ _ => none

/-- The payload of the `errors.E(ErrCannotExtendObject, format, key, path,
key, subobj)` call sites in `SetAt`/`DeleteAt`: the error kind, the two
format arguments `key` and `path` *as they are at the moment of the
call* (note `path` has been shrunk by `path = path[1:]` on each earlier
iteration), and the blocking non-object value `subobj`. -/
structure ErrInfo : Type where
  kind : String
  key : String
  path : List String
  blocking : Value
deriving Repr

/-- `ErrCannotExtendObject`. -/
def ErrCannotExtendObject : String := "cannot extend object"

/-- `Object.SetAt` on the receiver's `Keys` map, state-passing: returns
the map after the call together with the returned error (`none` = `nil`).
The Go loop runs while `len(path) > 1`; a missing intermediate key is
filled with `NewObject(value.Origin())` before descending, an existing
non-object intermediate aborts with `ErrCannotExtendObject` and performs
no write at that level.  An empty path panics in Go (`path[0]`); the `[]`
equation is an arbitrary placeholder, never relied upon. -/
def setAt : List (String × Value) → List String → Value →
    List (String × Value) × Option ErrInfo
  | keys, [], _ => (keys, none)
  | keys, [k], v => (insertKeys keys k v, none)
  | keys, k :: k1 :: rest, v =>
    match lookupKeys keys k with
    | none =>
      -- subobj = NewObject(value.Origin()); obj.Set(key, subobj); descend
      let r := setAt [] (k1 :: rest) v
      (insertKeys keys k (.objV v.origin r.1), r.2)
    | some (.objV so skeys) =>
      let r := setAt skeys (k1 :: rest) v
      (insertKeys keys k (.objV so r.1), r.2)
    | some (.ctyV go cv) =>
      (keys, some ⟨ErrCannotExtendObject, k, k :: k1 :: rest, .ctyV go cv⟩)

/-- `Object.DeleteAt` on the receiver's `Keys` map, state-passing.  The
loop descends without creating intermediates: a missing intermediate is a
silent no-op success, a non-object intermediate is `ErrCannotExtendObject`;
at the terminal key, `delete` removes the binding if present.  The `[]`
equation is an arbitrary placeholder for the Go panic on `path[0]`. -/
def deleteAt : List (String × Value) → List String →
    List (String × Value) × Option ErrInfo
  | keys, [] => (keys, none)
  | keys, [k] => (eraseKeys keys k, none)
  | keys, k :: k1 :: rest =>
    match lookupKeys keys k with
    | none => (keys, none)
    | some (.objV so skeys) =>
      let r := deleteAt skeys (k1 :: rest)
      (insertKeys keys k (.objV so r.1), r.2)
    | some (.ctyV go cv) =>
      (keys, some ⟨ErrCannotExtendObject, k, k :: k1 :: rest, .ctyV go cv⟩)

mutual
/-- The Go `map` invariant over the whole tree: every `Keys` map of every
`Object` in the value is duplicate-free. -/
def wfValue : Value → Bool
  | .ctyV _ _ => true
  | .objV _ keys => nodupKeys keys && wfEntries keys

/-- `wfValue` for every value of an entry list. -/
def wfEntries : List (String × Value) → Bool
  | [] => true
  | (_, v) :: rest => wfValue v && wfEntries rest
end

mutual
/-- `Object.AsValueMap` restricted to the entry list: for every entry, a
nested `Object` becomes `cty.ObjectVal` of its recursive map, a `CtyValue`
becomes `vv.Raw()` (unmark).  Total: the `default: panic("unreachable")`
arm cannot fire in the closed two-variant model. -/
def asValueMapEntries : List (String × Value) → List (String × CtyVal)
  | [] => []
  | (k, v) :: rest => (k, valueAsCty v) :: asValueMapEntries rest

/-- The image of one `Value` under `Object.AsValueMap`. -/
def valueAsCty : Value → CtyVal
  | .objV _ ks => .obj (asValueMapEntries ks) []
  | .ctyV _ cv => cv.unmark
end

/-- `NewCtyValue(val, origin)`: marks `val` with `origin` and wraps it. -/
def newCtyValue (v : CtyVal) (origin : ProjPath) : Value :=
  .ctyV origin (v.mark origin)

/-- `CtyValue.Raw()` lifted to `Value`: `Raw` is a method of the `CtyValue`
variant only, so an `Object` has no `Raw` (`none`). -/
def ctyValueRaw : Value → Option CtyVal
  | .ctyV _ cv => some cv.unmark
  | .objV _ _ => none

mutual
/-- `NewValue(val, origin)`: for an object-typed `val`, a fresh `Object`
filled by `SetFromCtyValues(val.AsValueMap(), origin)` — so a marked,
null or unknown object-typed value panics (`none`) in `AsValueMap`;
otherwise `NewCtyValue(val, origin)`.  The equations case on the
constructor so that `val.Type().IsObjectType()` and `val.AsValueMap()`
are unfolded: `obj fs []` is exactly the object-typed case where
`AsValueMap` succeeds with `fs`. -/
def newValue : CtyVal → ProjPath → Option Value
  | .obj fs [], origin =>
    match setFromCtyValues [] fs origin with
    | some keys => some (.objV origin keys)
    | none => none
  | .obj _ (_ :: _), _ => none
  | .nullObj _, _ => none
  | .unknownObj _, _ => none
  | .scalar s m, origin => some (newCtyValue (.scalar s m) origin)

/-- `Object.SetFromCtyValues(values, origin)` on the receiver's `Keys`
map.  The per-entry body of the Go loop (object-typed: fresh `Object` +
recursive `SetFromCtyValues` of `v.AsValueMap()`; otherwise
`NewCtyValue`) coincides with `NewValue(v, origin)`, which the model
shares.  `none` models the `AsValueMap` panic on a marked/null/unknown
object-typed entry. -/
def setFromCtyValues : List (String × Value) → List (String × CtyVal) →
    ProjPath → Option (List (String × Value))
  | keys, [], _ => some keys
  | keys, (k, v) :: rest, origin =>
    match newValue v origin with
    | none => none
    | some w => setFromCtyValues (insertKeys keys k w) rest origin
end

/-- `Object.SetFrom(values)`: bulk insert in the canonical iteration
order; `none` models the `panic(errors.E("SetFrom failed: ..."))` on the
first key that already exists in the receiver. -/
def setFrom : List (String × Value) → List (String × Value) →
    Option (List (String × Value))
  | keys, [] => some keys
  | keys, (k, v) :: rest =>
    match lookupKeys keys k with
    | some _ => none
    | none => setFrom (insertKeys keys k v) rest

/-- Modelled from the spec: a source range of a structured diagnostic
(filename + position span), as exposed by the external parser. -/
structure SrcRange : Type where
  filename : String
  startLine : Nat
  startCol : Nat
  startByte : Nat
  endLine : Nat
  endCol : Nat
  endByte : Nat
deriving Repr, DecidableEq

/-- Modelled from the spec: one atomic (non-aggregate) error, as built by
the kind-tagged factory `errors.E` or wrapped from a plain error; only
what the claims need is represented (a message and an optional range). -/
structure AtomicErr : Type where
  msg : String
  range : Option SrcRange := none
deriving Repr, DecidableEq

/-- Modelled from the spec: one structured diagnostic of a batch, exposing
a detail message and a source range. -/
structure Diagnostic : Type where
  detail : String
  range : SrcRange
deriving Repr, DecidableEq

/-- Modelled from the spec: `errors.List`, the ordered flattening
collector of atomic errors (its implementation is not among the source
files; only its tests are).  The sequence never materializes `nil`
entries. -/
structure DiagnosticList : Type where
  errs : List AtomicErr
deriving Repr, DecidableEq

/-- Modelled from the spec: the constructor `errors.L(errs...)` — `nil`
arguments among the initial errors are dropped. -/
def Lmk (args : List (Option AtomicErr)) : DiagnosticList :=
  ⟨args.filterMap id⟩

/-- Modelled from the spec: the four shapes `List.Append` accepts — `nil`,
a plain atomic error, another `errors.List`, or a batch of structured
diagnostics. -/
inductive Appendable : Type where
  | nilArg
  | atomic (e : AtomicErr)
  | list (l : DiagnosticList)
  | diags (ds : List Diagnostic)
deriving Repr

/-- Modelled from the spec: converting one structured diagnostic to one
atomic error (`errors.E(detail, range)`). -/
def diagToErr (d : Diagnostic) : AtomicErr :=
  ⟨d.detail, some d.range⟩

/-- Modelled from the spec: `List.Append` — `nil` is ignored, an atomic
error is appended as-is, another list is flattened in place (its elements
appended individually, order preserved), a diagnostic batch is converted
entrywise in its original order. -/
def DiagnosticList.append (l : DiagnosticList) : Appendable → DiagnosticList
  | .nilArg => l
  | .atomic e => ⟨l.errs ++ [e]⟩
  | .list m => ⟨l.errs ++ m.errs⟩
  | .diags ds => ⟨l.errs ++ ds.map diagToErr⟩

/-- Modelled from the spec: `List.Errors()`, the snapshot of the flattened
ordered sequence. -/
def DiagnosticList.errorsOf (l : DiagnosticList) : List AtomicErr :=
  l.errs

/-- Modelled from the spec: `List.AsError()` — `nil` (`none`) if the
sequence is empty, otherwise an error value representing the whole
list. -/
def DiagnosticList.asError (l : DiagnosticList) : Option DiagnosticList :=
  match l.errs with
  | [] => none
  | _ :: _ => some l

/-- Modelled from the spec: `List.Error()` — empty string if empty,
otherwise a single-line joined representation of all atomic errors (the
exact separator is pinned down by neither spec nor tests; a comma is
used). -/
def DiagnosticList.errorLine (l : DiagnosticList) : String :=
  match l.errs with
  | [] => ""
  | es => String.intercalate "," (es.map AtomicErr.msg)

/-- Modelled from the spec and the test
`TestErrorListStringDetailedPresentation`: `List.Detailed()` — empty
string if empty, otherwise the header `error list:` followed by one
tab-indented bullet line per atomic error, in order. -/
def DiagnosticList.detailed (l : DiagnosticList) : String :=
  match l.errs with
  | [] => ""
  | es => "error list:" ++ String.join (es.map (fun e => "\n\t-" ++ e.msg))

/-- `NewObject(origin)`: empty `Object` tagged with `origin`. -/
def NewObject (origin : ProjPath) : Value :=
  .objV origin []

/-- The Go `map` invariant for one `Keys` map and, recursively, for every
nested `Object` below it. -/
def wfKeys (keys : List (String × Value)) : Bool :=
  nodupKeys keys && wfEntries keys

/-- Spec-side relation (for the refinement claim about `GetKeyPath`): `w`
is "the value reached by consuming the keys one at a time", descending
through `Object`s only. -/
inductive Reaches : List (String × Value) → List String → Value → Prop where
  | last {keys : List (String × Value)} {k : String} {w : Value} :
      lookupKeys keys k = some w → Reaches keys [k] w
  | step {keys : List (String × Value)} {k : String} {so : ProjPath}
      {sks : List (String × Value)} {p : List String} {w : Value} :
      lookupKeys keys k = some (.objV so sks) → Reaches sks p w →
      Reaches keys (k :: p) w

/-- Spec-side relation (for the refinement claim about `GetKeyPath`): the
descent fails because "some key on the path is absent at its level, or
some non-terminal key maps to a Scalar". -/
inductive Misses : List (String × Value) → List String → Prop where
  | absent {keys : List (String × Value)} {k : String} {p : List String} :
      lookupKeys keys k = none → Misses keys (k :: p)
  | scalarBlock {keys : List (String × Value)} {k : String} {g : ProjPath}
      {cv : CtyVal} {p : List String} :
      lookupKeys keys k = some (.ctyV g cv) → p ≠ [] → Misses keys (k :: p)
  | deeper {keys : List (String × Value)} {k : String} {so : ProjPath}
      {sks : List (String × Value)} {p : List String} :
      lookupKeys keys k = some (.objV so sks) → Misses sks p →
      Misses keys (k :: p)

mutual
/-- Spec-side predicate (for the round-trip claim): a "raw structural
value with known, non-null contents" — no marks anywhere, every
object-typed node a known non-null object with duplicate-free field
names. -/
def pureRaw : CtyVal → Bool
  | .scalar _ m => m.isEmpty
  | .obj fs m => m.isEmpty && (fs.map Prod.fst).Nodup && pureRawEntries fs
  | .nullObj _ => false
  | .unknownObj _ => false

/-- `pureRaw` for every field of an entry list. -/
def pureRawEntries : List (String × CtyVal) → Bool
  | [] => true
  | (_, v) :: rest => pureRaw v && pureRawEntries rest
end

/-! ### Association-list map lemmas -/

theorem nodupKeys_iff (ks : List (String × Value)) :
    nodupKeys ks = true ↔ (ks.map Prod.fst).Nodup := by
  simp [nodupKeys]

theorem lookup_insert_self (ks : List (String × Value)) (k : String) (v : Value) :
    lookupKeys (insertKeys ks k v) k = some v := by
  induction ks with
  | nil => simp [insertKeys, lookupKeys]
  | cons hd tl ih =>
    obtain ⟨k0, w0⟩ := hd
    by_cases h : k0 = k
    · simp [insertKeys, lookupKeys, h]
    · simp [insertKeys, lookupKeys, h, ih]

theorem lookup_insert_ne (ks : List (String × Value)) {k key : String} (v : Value)
    (h : key ≠ k) : lookupKeys (insertKeys ks k v) key = lookupKeys ks key := by
  induction ks with
  | nil => simp [insertKeys, lookupKeys, Ne.symm h]
  | cons hd tl ih =>
    obtain ⟨k0, w0⟩ := hd
    by_cases h0 : k0 = k
    · subst h0
      simp [insertKeys, lookupKeys, Ne.symm h]
    · simp only [insertKeys, if_neg h0, lookupKeys]
      by_cases h1 : k0 = key
      · simp [h1]
      · simp [h1, ih]

theorem insert_lookup_id {ks : List (String × Value)} {k : String} {v : Value}
    (h : lookupKeys ks k = some v) : insertKeys ks k v = ks := by
  induction ks with
  | nil => simp [lookupKeys] at h
  | cons hd tl ih =>
    obtain ⟨k0, w0⟩ := hd
    by_cases h0 : k0 = k
    · subst h0
      simp [lookupKeys] at h
      simp [insertKeys, h]
    · simp [lookupKeys, h0] at h
      simp [insertKeys, h0, ih h]

theorem erase_absent {ks : List (String × Value)} {k : String}
    (h : lookupKeys ks k = none) : eraseKeys ks k = ks := by
  induction ks with
  | nil => simp [eraseKeys]
  | cons hd tl ih =>
    obtain ⟨k0, w0⟩ := hd
    by_cases h0 : k0 = k
    · simp [lookupKeys, h0] at h
    · simp [lookupKeys, h0] at h
      simp [eraseKeys, h0, ih h]

theorem lookup_none_iff_not_mem (ks : List (String × Value)) (k : String) :
    lookupKeys ks k = none ↔ k ∉ ks.map Prod.fst := by
  induction ks with
  | nil => simp [lookupKeys]
  | cons hd tl ih =>
    obtain ⟨k0, w0⟩ := hd
    by_cases h0 : k0 = k
    · simp [lookupKeys, h0]
    · simp [lookupKeys, h0, ih, Ne.symm h0]

theorem lookup_erase_self {ks : List (String × Value)} (k : String)
    (hnd : nodupKeys ks = true) : lookupKeys (eraseKeys ks k) k = none := by
  rw [nodupKeys_iff] at hnd
  induction ks with
  | nil => simp [eraseKeys, lookupKeys]
  | cons hd tl ih =>
    obtain ⟨k0, w0⟩ := hd
    rw [show ((k0, w0) :: tl).map Prod.fst = k0 :: tl.map Prod.fst from rfl,
      List.nodup_cons] at hnd
    by_cases h0 : k0 = k
    · subst h0
      simp only [eraseKeys, if_pos rfl]
      exact (lookup_none_iff_not_mem tl k0).2 hnd.1
    · simp only [eraseKeys, if_neg h0, lookupKeys, if_neg h0]
      exact ih hnd.2

theorem map_fst_insert (ks : List (String × Value)) (k : String) (v : Value) :
    (insertKeys ks k v).map Prod.fst =
      if k ∈ ks.map Prod.fst then ks.map Prod.fst else ks.map Prod.fst ++ [k] := by
  induction ks with
  | nil => simp [insertKeys]
  | cons hd tl ih =>
    obtain ⟨k0, w0⟩ := hd
    by_cases h0 : k0 = k
    · simp [insertKeys, h0]
    · by_cases hm : k ∈ tl.map Prod.fst
      · simp [insertKeys, h0, ih, hm, Ne.symm h0]
      · simp [insertKeys, h0, ih, hm, Ne.symm h0]

theorem nodup_insert {ks : List (String × Value)} (k : String) (v : Value)
    (hnd : nodupKeys ks = true) : nodupKeys (insertKeys ks k v) = true := by
  rw [nodupKeys_iff] at hnd ⊢
  rw [map_fst_insert]
  by_cases hm : k ∈ ks.map Prod.fst
  · simpa [hm]
  · simp [hm, List.nodup_append, hnd]

theorem lookup_mem {ks : List (String × Value)} {k : String} {v : Value}
    (h : lookupKeys ks k = some v) : (k, v) ∈ ks := by
  induction ks with
  | nil => simp [lookupKeys] at h
  | cons hd tl ih =>
    obtain ⟨k0, w0⟩ := hd
    by_cases h0 : k0 = k
    · subst h0
      simp [lookupKeys] at h
      simp [h]
    · simp [lookupKeys, h0] at h
      simp [ih h]

theorem wfEntries_mem {ks : List (String × Value)} {k : String} {v : Value}
    (hwf : wfEntries ks = true) (hmem : (k, v) ∈ ks) : wfValue v = true := by
  induction ks with
  | nil => simp at hmem
  | cons hd tl ih =>
    obtain ⟨k0, w0⟩ := hd
    rw [wfEntries, Bool.and_eq_true] at hwf
    rcases List.mem_cons.1 hmem with h | h
    · injection h with h1 h2
      subst h2
      exact hwf.1
    · exact ih hwf.2 h

theorem wf_lookup_obj {ks : List (String × Value)} {k : String} {so : ProjPath}
    {sks : List (String × Value)} (hwf : wfKeys ks = true)
    (h : lookupKeys ks k = some (.objV so sks)) : wfKeys sks = true := by
  rw [wfKeys, Bool.and_eq_true] at hwf
  have := wfEntries_mem hwf.2 (lookup_mem h)
  rw [wfValue] at this
  exact this

/-! ### SetAt on a fresh object (claim C2 groundwork) -/

theorem getKeyPath_single (keys : List (String × Value)) (key : String) :
    getKeyPath keys [key] = lookupKeys keys key := by
  rw [getKeyPath]
  cases lookupKeys keys key <;> simp

theorem getKeyPath_cons_cons (keys : List (String × Value)) (key k2 : String)
    (next : List String) :
    getKeyPath keys (key :: k2 :: next) =
      match lookupKeys keys key with
      | none => none
      | some (.objV _ subkeys) => getKeyPath subkeys (k2 :: next)
      | some (.ctyV _ _) => none := by
  rw [getKeyPath]
  cases h : lookupKeys keys key with
  | none => rfl
  | some v => cases v <;> simp

theorem setAt_fresh (path : List String) (v : Value) (hne : path ≠ []) :
    (setAt [] path v).2 = none ∧
    getKeyPath (setAt [] path v).1 path = some v ∧
    ∀ i, 0 < i → i < path.length →
      ∃ sks, getKeyPath (setAt [] path v).1 (path.take i) =
        some (.objV v.origin sks) := by
  induction path with
  | nil => exact absurd rfl hne
  | cons k rest ih =>
    cases rest with
    | nil =>
      refine ⟨rfl, ?_, ?_⟩
      · simp [setAt, insertKeys, getKeyPath_single, lookupKeys]
      · intro i hi hlen
        simp at hlen
        omega
    | cons k1 rest2 =>
      obtain ⟨ih1, ih2, ih3⟩ := ih (by simp)
      refine ⟨?_, ?_, ?_⟩
      · simpa [setAt, insertKeys] using ih1
      · simp only [setAt, insertKeys, getKeyPath_cons_cons, lookupKeys, if_pos]
        exact ih2
      · intro i hi hlen
        cases i with
        | zero => omega
        | succ j =>
          cases j with
          | zero =>
            refine ⟨(setAt [] (k1 :: rest2) v).1, ?_⟩
            simp [setAt, insertKeys, getKeyPath_single, lookupKeys]
          | succ j2 =>
            obtain ⟨sks, hsks⟩ := ih3 (j2 + 1) (by omega)
              (by simp only [List.length_cons] at hlen ⊢; omega)
            refine ⟨sks, ?_⟩
            rw [List.take_succ_cons] at hsks
            simp only [List.take_succ_cons, setAt, insertKeys,
              getKeyPath_cons_cons, lookupKeys, if_pos]
            exact hsks

/-! ### SetAt blocked by a scalar intermediate (claim C1 groundwork) -/

theorem setAt_scalar_blocked :
    ∀ (i : Nat) (path : List String) (keys : List (String × Value)) (v w : Value),
      i + 2 ≤ path.length →
      getKeyPath keys (path.take (i + 1)) = some w →
      w.isObject = false →
      setAt keys path v =
        (keys, some ⟨ErrCannotExtendObject, path.getD i "", path.drop i, w⟩) := by
  intro i
  induction i with
  | zero =>
    intro path keys v w hlen hget hobj
    cases path with
    | nil => simp at hlen
    | cons k ptail =>
      cases ptail with
      | nil => simp at hlen
      | cons k1 rest =>
        simp only [List.take_succ_cons, List.take_zero, getKeyPath_single] at hget
        cases w with
        | objV so sks => simp [Value.isObject] at hobj
        | ctyV g cv =>
          simp only [setAt, hget]
          simp [List.getD]
  | succ j ihj =>
    intro path keys v w hlen hget hobj
    cases path with
    | nil => simp at hlen
    | cons k ptail =>
      cases ptail with
      | nil => simp at hlen
      | cons k1 rest =>
        simp only [List.take_succ_cons] at hget
        rw [getKeyPath_cons_cons] at hget
        cases hlk : lookupKeys keys k with
        | none => rw [hlk] at hget; simp at hget
        | some u =>
          rw [hlk] at hget
          cases u with
          | ctyV g cv => simp at hget
          | objV so sks =>
            simp only at hget
            have hrec := ihj (k1 :: rest) sks v w
              (by simp only [List.length_cons] at hlen ⊢; omega)
              (by simpa [List.take_succ_cons] using hget) hobj
            simp only [setAt, hlk, hrec]
            rw [insert_lookup_id hlk]
            simp [List.getD_cons_succ, List.drop_succ_cons]

/-! ### DeleteAt (claim C3 groundwork) -/

theorem deleteAt_noop :
    ∀ (p : List String) (keys : List (String × Value)), p ≠ [] →
      getKeyPath keys p = none →
      (∀ i w, i + 1 < p.length → getKeyPath keys (p.take (i + 1)) = some w →
        w.isObject = true) →
      deleteAt keys p = (keys, none) := by
  intro p
  induction p with
  | nil => intro keys hne; exact absurd rfl hne
  | cons k ptail ih =>
    intro keys _ h1 h2
    cases ptail with
    | nil =>
      rw [getKeyPath_single] at h1
      simp only [deleteAt, erase_absent h1]
    | cons k1 rest =>
      rw [getKeyPath_cons_cons] at h1
      cases hlk : lookupKeys keys k with
      | none => simp only [deleteAt, hlk]
      | some u =>
        rw [hlk] at h1
        cases u with
        | ctyV g cv =>
          have := h2 0 (.ctyV g cv) (by simp)
            (by simp only [List.take_succ_cons, List.take_zero,
              getKeyPath_single]; exact hlk)
          simp [Value.isObject] at this
        | objV so sks =>
          simp only at h1
          have hrec := ih sks (by simp) h1 ?_
          · simp only [deleteAt, hlk, hrec, insert_lookup_id hlk]
          · intro i w hilen hget
            refine h2 (i + 1) w ?_ ?_
            · simp only [List.length_cons] at hilen ⊢
              omega
            · simp only [List.take_succ_cons, getKeyPath_cons_cons, hlk]
              simpa [List.take_succ_cons] using hget

theorem setAt_then_deleteAt :
    ∀ (path : List String) (keys : List (String × Value)) (v : Value),
      path ≠ [] → wfKeys keys = true → (setAt keys path v).2 = none →
      (deleteAt (setAt keys path v).1 path).2 = none ∧
      getKeyPath (deleteAt (setAt keys path v).1 path).1 path = none ∧
      deleteAt (deleteAt (setAt keys path v).1 path).1 path =
        ((deleteAt (setAt keys path v).1 path).1, none) := by
  intro path
  induction path with
  | nil => intro keys v hne; exact absurd rfl hne
  | cons k ptail ih =>
    intro keys v _ hwf hok
    cases ptail with
    | nil =>
      have hnd : nodupKeys (insertKeys keys k v) = true :=
        nodup_insert k v (by rw [wfKeys, Bool.and_eq_true] at hwf; exact hwf.1)
      have hb : lookupKeys (eraseKeys (insertKeys keys k v) k) k = none :=
        lookup_erase_self k hnd
      refine ⟨rfl, ?_, ?_⟩
      · simp only [setAt, deleteAt, getKeyPath_single]
        exact hb
      · simp only [setAt, deleteAt]
        rw [erase_absent hb]
    | cons k1 rest =>
      cases hlk : lookupKeys keys k with
      | none =>
        have hok2 : (setAt [] (k1 :: rest) v).2 = none := by
          simpa only [setAt, hlk] using hok
        obtain ⟨a2, b2, c2⟩ := ih [] v (by simp) (by decide) hok2
        refine ⟨?_, ?_, ?_⟩
        · simp only [setAt, hlk, deleteAt, lookup_insert_self]
          exact a2
        · simp only [setAt, hlk, deleteAt, lookup_insert_self,
            getKeyPath_cons_cons]
          exact b2
        · simp only [setAt, hlk, deleteAt, lookup_insert_self, c2]
          rw [insert_lookup_id (lookup_insert_self ..)]
      | some u =>
        cases u with
        | ctyV g cv =>
          rw [show setAt keys (k :: k1 :: rest) v =
            (keys, some ⟨ErrCannotExtendObject, k, k :: k1 :: rest, .ctyV g cv⟩) by
              simp only [setAt, hlk]] at hok
          exact Option.noConfusion hok
        | objV so sks =>
          have hok2 : (setAt sks (k1 :: rest) v).2 = none := by
            simpa only [setAt, hlk] using hok
          obtain ⟨a2, b2, c2⟩ := ih sks v (by simp) (wf_lookup_obj hwf hlk) hok2
          refine ⟨?_, ?_, ?_⟩
          · simp only [setAt, hlk, deleteAt, lookup_insert_self]
            exact a2
          · simp only [setAt, hlk, deleteAt, lookup_insert_self,
              getKeyPath_cons_cons]
            exact b2
          · simp only [setAt, hlk, deleteAt, lookup_insert_self, c2]
            rw [insert_lookup_id (lookup_insert_self ..)]

/-! ### GetKeyPath characterization (claim C5 groundwork) -/

theorem getKeyPath_characterization :
    ∀ (path : List String) (keys : List (String × Value)), path ≠ [] →
      (getKeyPath keys path = none ↔ Misses keys path) ∧
      (∀ w, getKeyPath keys path = some w ↔ Reaches keys path w) := by
  intro path
  induction path with
  | nil => intro keys hne; exact absurd rfl hne
  | cons k ptail ih =>
    intro keys _
    cases ptail with
    | nil =>
      rw [getKeyPath_single]
      constructor
      · constructor
        · intro h
          exact Misses.absent h
        · intro hm
          cases hm with
          | absent h => exact h
          | scalarBlock h hp => exact absurd rfl hp
          | deeper h hm2 => cases hm2
      · intro w
        constructor
        · intro h
          exact Reaches.last h
        · intro hr
          cases hr with
          | last h => exact h
          | step h hr2 => cases hr2
    | cons k1 rest =>
      obtain ⟨ihn, ihs⟩ := ih keys (by simp)
      rw [getKeyPath_cons_cons]
      cases hlk : lookupKeys keys k with
      | none =>
        constructor
        · exact ⟨fun _ => Misses.absent hlk, fun _ => rfl⟩
        · intro w
          constructor
          · intro h
            exact Option.noConfusion h
          · intro hr
            cases hr with
            | step h hr2 =>
              rw [hlk] at h
              exact Option.noConfusion h
      | some u =>
        cases u with
        | ctyV g cv =>
          constructor
          · exact ⟨fun _ => Misses.scalarBlock hlk (by simp), fun _ => rfl⟩
          · intro w
            constructor
            · intro h
              exact Option.noConfusion h
            · intro hr
              cases hr with
              | step h hr2 =>
                rw [hlk] at h
                cases h
        | objV so sks =>
          obtain ⟨ihn2, ihs2⟩ := ih sks (by simp)
          constructor
          · constructor
            · intro h
              exact Misses.deeper hlk (ihn2.1 h)
            · intro hm
              cases hm with
              | absent h =>
                rw [hlk] at h
                exact Option.noConfusion h
              | scalarBlock h hp =>
                rw [hlk] at h
                cases h
              | deeper h hm2 =>
                rw [hlk] at h
                injection h with h3
                injection h3 with h4 h5
                subst h5
                exact ihn2.2 hm2
          · intro w
            constructor
            · intro h
              exact Reaches.step hlk (ihs2 w |>.1 h)
            · intro hr
              cases hr with
              | step h hr2 =>
                rw [hlk] at h
                injection h with h3
                injection h3 with h4 h5
                subst h5
                exact ihs2 w |>.2 hr2

/-! ### Round trip NewValue / AsValueMap (claim C4 groundwork) -/

theorem asValueMapEntries_append (a b : List (String × Value)) :
    asValueMapEntries (a ++ b) = asValueMapEntries a ++ asValueMapEntries b := by
  induction a with
  | nil => simp [asValueMapEntries]
  | cons hd tl ih =>
    obtain ⟨k, v⟩ := hd
    simp [asValueMapEntries, ih]

theorem insert_absent_append {ks : List (String × Value)} {k : String} (v : Value)
    (h : lookupKeys ks k = none) : insertKeys ks k v = ks ++ [(k, v)] := by
  induction ks with
  | nil => simp [insertKeys]
  | cons hd tl ih =>
    obtain ⟨k0, w0⟩ := hd
    by_cases h0 : k0 = k
    · simp [lookupKeys, h0] at h
    · simp [lookupKeys, h0] at h
      simp [insertKeys, h0, ih h]

mutual
theorem newValue_roundTrip :
    ∀ (v : CtyVal) (o : ProjPath), pureRaw v = true →
      ∃ w, newValue v o = some w ∧ valueAsCty w = v
  | .scalar s m, o, h => by
    rw [pureRaw] at h
    have hm : m = [] := by simpa using h
    subst hm
    refine ⟨newCtyValue (.scalar s []) o, rfl, ?_⟩
    simp [newCtyValue, CtyVal.mark, valueAsCty, CtyVal.unmark]
  | .obj fs m, o, h => by
    rw [pureRaw] at h
    simp only [Bool.and_eq_true] at h
    obtain ⟨⟨hm, hnd⟩, hfs⟩ := h
    have hm2 : m = [] := by simpa using hm
    subst hm2
    obtain ⟨ks, hset, hmap⟩ := setFromCtyValues_roundTrip fs o [] hfs
      (by simpa using hnd) (fun k _ => rfl)
    refine ⟨.objV o ks, ?_, ?_⟩
    · simp only [newValue, hset]
    · rw [valueAsCty]
      rw [hmap]
      simp [asValueMapEntries]
  | .nullObj m, o, h => by
    rw [pureRaw] at h
    exact absurd h (by simp)
  | .unknownObj m, o, h => by
    rw [pureRaw] at h
    exact absurd h (by simp)

theorem setFromCtyValues_roundTrip :
    ∀ (fs : List (String × CtyVal)) (o : ProjPath)
      (keys0 : List (String × Value)),
      pureRawEntries fs = true → (fs.map Prod.fst).Nodup →
      (∀ k, k ∈ fs.map Prod.fst → lookupKeys keys0 k = none) →
      ∃ ks, setFromCtyValues keys0 fs o = some ks ∧
        asValueMapEntries ks = asValueMapEntries keys0 ++ fs
  | [], o, keys0, _, _, _ => ⟨keys0, rfl, by simp⟩
  | (k, v) :: rest, o, keys0, hp, hnd, hfresh => by
    rw [pureRawEntries, Bool.and_eq_true] at hp
    rw [show ((k, v) :: rest).map Prod.fst = k :: rest.map Prod.fst from rfl,
      List.nodup_cons] at hnd
    obtain ⟨w, hw, hwc⟩ := newValue_roundTrip v o hp.1
    have hk0 : lookupKeys keys0 k = none := hfresh k (by simp)
    obtain ⟨ks, hset, hmap⟩ := setFromCtyValues_roundTrip rest o
      (insertKeys keys0 k w) hp.2 hnd.2
      (fun k1 hk1 => by
        have hne : k1 ≠ k := by
          intro he
          exact hnd.1 (he ▸ hk1)
        rw [lookup_insert_ne keys0 w hne]
        exact hfresh k1 (by simp [hk1]))
    refine ⟨ks, ?_, ?_⟩
    · simp only [setFromCtyValues, hw, hset]
    · rw [hmap, insert_absent_append w hk0, asValueMapEntries_append]
      simp [asValueMapEntries, hwc]
end

/-! ### SetFrom (claim C9 groundwork) -/

theorem setFrom_spec :
    ∀ (vals keys : List (String × Value)),
      (vals.map Prod.fst).Nodup →
      (setFrom keys vals = none ↔ ∃ kv ∈ vals, lookupKeys keys kv.1 ≠ none) ∧
      ((∀ kv ∈ vals, lookupKeys keys kv.1 = none) →
        ∃ r, setFrom keys vals = some r ∧
          (∀ kv ∈ vals, lookupKeys r kv.1 = some kv.2) ∧
          (∀ key, key ∉ vals.map Prod.fst →
            lookupKeys r key = lookupKeys keys key)) := by
  intro vals
  induction vals with
  | nil =>
    intro keys _
    refine ⟨by simp [setFrom], ?_⟩
    intro _
    exact ⟨keys, rfl, by simp, fun _ _ => rfl⟩
  | cons hd rest ih =>
    obtain ⟨k, v⟩ := hd
    intro keys hnd
    rw [show ((k, v) :: rest).map Prod.fst = k :: rest.map Prod.fst from rfl,
      List.nodup_cons] at hnd
    constructor
    · cases hlk : lookupKeys keys k with
      | some u =>
        simp only [setFrom, hlk]
        constructor
        · intro _
          exact ⟨(k, v), by simp, by simp [hlk]⟩
        · intro _
          trivial
      | none =>
        simp only [setFrom, hlk]
        rw [(ih (insertKeys keys k v) hnd.2).1]
        constructor
        · rintro ⟨kv, hmem, hne⟩
          refine ⟨kv, by simp [hmem], ?_⟩
          have hkne : kv.1 ≠ k := by
            intro he
            exact hnd.1 (he ▸ (List.mem_map_of_mem Prod.fst hmem))
          rwa [lookup_insert_ne keys v hkne] at hne
        · rintro ⟨kv, hmem, hne⟩
          rcases List.mem_cons.1 hmem with he | hmem2
          · subst he
            simp only at hne
            exact absurd hlk hne
          · refine ⟨kv, hmem2, ?_⟩
            have hkne : kv.1 ≠ k := by
              intro he
              exact hnd.1 (he ▸ (List.mem_map_of_mem Prod.fst hmem2))
            rwa [lookup_insert_ne keys v hkne]
    · intro hall
      have hlk : lookupKeys keys k = none := hall (k, v) (by simp)
      obtain ⟨r, hset, hlook, hpres⟩ := (ih (insertKeys keys k v) hnd.2).2
        (fun kv hmem => by
          have hkne : kv.1 ≠ k := by
            intro he
            exact hnd.1 (he ▸ (List.mem_map_of_mem Prod.fst hmem))
          rw [lookup_insert_ne keys v hkne]
          exact hall kv (by simp [hmem]))
      refine ⟨r, ?_, ?_, ?_⟩
      · simp only [setFrom, hlk, hset]
      · intro kv hmem
        rcases List.mem_cons.1 hmem with he | hmem2
        · subst he
          rw [hpres k hnd.1, lookup_insert_self]
        · exact hlook kv hmem2
      · intro key hkey
        simp only [List.map_cons, List.mem_cons, not_or] at hkey
        rw [hpres key hkey.2, lookup_insert_ne keys v hkey.1]

/-! ### Claim theorems -/

/-- C1 (amended): for every `Object` and every path with a non-final key
(at index `i`) that already resolves to a `Scalar` in the tree, `SetAt`
returns an `ErrCannotExtendObject` error carrying the offending key, the
*remaining path from the offending key onward* (the Go loop shrinks
`path` before the error is built, so the reported path is `path[i:]`,
not the full path), and the blocking value — and the `Keys` map is
exactly the same after the call as before it. -/
theorem setAt_blocked_error_and_unchanged
    (keys : List (String × Value)) (path : List String) (v w : Value) (i : Nat)
    (hlen : i + 2 ≤ path.length)
    (hget : getKeyPath keys (path.take (i + 1)) = some w)
    (hsc : w.isObject = false) :
    setAt keys path v =
      (keys, some ⟨ErrCannotExtendObject, path.getD i "", path.drop i, w⟩) :=
  setAt_scalar_blocked i path keys v w hlen hget hsc

theorem setAt_blocked_error_and_unchanged_witness :
    1 + 2 ≤ (["a", "b", "c"] : List String).length ∧
    getKeyPath [("a", Value.objV "o" [("b", Value.ctyV "o" (CtyVal.scalar "s" []))])]
      ((["a", "b", "c"] : List String).take 2) =
      some (Value.ctyV "o" (CtyVal.scalar "s" [])) ∧
    (Value.ctyV "o" (CtyVal.scalar "s" [])).isObject = false ∧
    setAt [("a", Value.objV "o" [("b", Value.ctyV "o" (CtyVal.scalar "s" []))])]
      ["a", "b", "c"] (Value.ctyV "o" (CtyVal.scalar "t" [])) =
      ([("a", Value.objV "o" [("b", Value.ctyV "o" (CtyVal.scalar "s" []))])],
       some ⟨ErrCannotExtendObject, (["a", "b", "c"] : List String).getD 1 "",
         (["a", "b", "c"] : List String).drop 1,
         Value.ctyV "o" (CtyVal.scalar "s" [])⟩) :=
  ⟨by decide, rfl, rfl,
    setAt_blocked_error_and_unchanged _ _ _ _ 1 (by decide) rfl rfl⟩

/-- C1 counterexample to the claim as stated: with the tree
`{a = {b = "s"}}` and path `["a","b","c"]`, the `ErrCannotExtendObject`
error reports the path `["b","c"]` — the remaining suffix at the moment
of failure — not the full path `["a","b","c"]` the claim promises. -/
theorem setAt_error_reports_suffix_not_full_path :
    ((setAt [("a", Value.objV "o" [("b", Value.ctyV "o" (CtyVal.scalar "s" []))])]
      ["a", "b", "c"] (Value.ctyV "o" (CtyVal.scalar "t" []))).2.map ErrInfo.path) =
      some ["b", "c"] ∧ (["b", "c"] : List String) ≠ ["a", "b", "c"] :=
  ⟨rfl, by decide⟩

/-- C2: on an `Object` fresh from `NewObject` (whose `Keys` map is empty)
and any non-empty path, `SetAt(path, v)` succeeds, a subsequent
`GetKeyPath(path)` returns `(v, true)`, and every intermediate `Object`
created along the way carries `v`'s origin. -/
theorem setAt_fresh_then_getKeyPath
    (path : List String) (v : Value) (hne : path ≠ []) :
    (setAt [] path v).2 = none ∧
    getKeyPath (setAt [] path v).1 path = some v ∧
    ∀ i, 0 < i → i < path.length →
      ∃ sks, getKeyPath (setAt [] path v).1 (path.take i) =
        some (.objV v.origin sks) :=
  setAt_fresh path v hne

theorem setAt_fresh_then_getKeyPath_witness :
    (["x", "y"] : List String) ≠ [] ∧
    ((setAt [] ["x", "y"] (Value.ctyV "vo" (CtyVal.scalar "1" []))).2 = none ∧
     getKeyPath (setAt [] ["x", "y"] (Value.ctyV "vo" (CtyVal.scalar "1" []))).1
       ["x", "y"] = some (Value.ctyV "vo" (CtyVal.scalar "1" [])) ∧
     ∀ i, 0 < i → i < (["x", "y"] : List String).length →
       ∃ sks, getKeyPath
         (setAt [] ["x", "y"] (Value.ctyV "vo" (CtyVal.scalar "1" []))).1
         ((["x", "y"] : List String).take i) =
         some (.objV (Value.ctyV "vo" (CtyVal.scalar "1" [])).origin sks)) :=
  ⟨by decide, setAt_fresh_then_getKeyPath ["x", "y"] _ (by decide)⟩

/-- C3: after a successful `SetAt(path, v)` on a well-formed `Object`,
`DeleteAt(path)` returns `nil` and makes `GetKeyPath(path)` not-found,
and a second `DeleteAt(path)` again returns `nil` and leaves the tree
unchanged; moreover (last conjunct) deleting any path whose terminal or
intermediate key is simply absent (no wrong-shaped intermediate) is a
success with no effect. -/
theorem deleteAt_after_setAt_idempotent
    (keys : List (String × Value)) (path : List String) (v : Value)
    (hne : path ≠ []) (hwf : wfKeys keys = true)
    (hok : (setAt keys path v).2 = none) :
    (deleteAt (setAt keys path v).1 path).2 = none ∧
    getKeyPath (deleteAt (setAt keys path v).1 path).1 path = none ∧
    deleteAt (deleteAt (setAt keys path v).1 path).1 path =
      ((deleteAt (setAt keys path v).1 path).1, none) ∧
    (∀ q, q ≠ [] → getKeyPath keys q = none →
      (∀ i w, i + 1 < q.length → getKeyPath keys (q.take (i + 1)) = some w →
        w.isObject = true) →
      deleteAt keys q = (keys, none)) := by
  obtain ⟨a, b, c⟩ := setAt_then_deleteAt path keys v hne hwf hok
  exact ⟨a, b, c, fun q hq h1 h2 => deleteAt_noop q keys hq h1 h2⟩

theorem deleteAt_after_setAt_idempotent_witness :
    (["a", "b"] : List String) ≠ [] ∧ wfKeys [] = true ∧
    (setAt [] ["a", "b"] (Value.ctyV "o" (CtyVal.scalar "1" []))).2 = none ∧
    ((deleteAt (setAt [] ["a", "b"] (Value.ctyV "o" (CtyVal.scalar "1" []))).1
        ["a", "b"]).2 = none ∧
     getKeyPath (deleteAt
        (setAt [] ["a", "b"] (Value.ctyV "o" (CtyVal.scalar "1" []))).1
        ["a", "b"]).1 ["a", "b"] = none ∧
     deleteAt (deleteAt
        (setAt [] ["a", "b"] (Value.ctyV "o" (CtyVal.scalar "1" []))).1
        ["a", "b"]).1 ["a", "b"] =
       ((deleteAt (setAt [] ["a", "b"] (Value.ctyV "o" (CtyVal.scalar "1" []))).1
        ["a", "b"]).1, none) ∧
     (∀ q, q ≠ [] →
      getKeyPath ([] : List (String × Value)) q = none →
      (∀ i w, i + 1 < q.length →
        getKeyPath ([] : List (String × Value)) (q.take (i + 1)) = some w →
        w.isObject = true) →
      deleteAt ([] : List (String × Value)) q = ([], none))) :=
  ⟨by decide, rfl, rfl,
    deleteAt_after_setAt_idempotent [] ["a", "b"] _ (by decide) rfl rfl⟩

/-- C4: for every raw value of structural object type with known,
non-null (and unmarked, duplicate-free) contents and every origin,
building a tree with `NewValue` and reading it back with `AsValueMap`
yields exactly the original field map — all provenance marks
stripped. -/
theorem newValue_asValueMap_roundTrip
    (fs : List (String × CtyVal)) (o : ProjPath)
    (h : pureRaw (CtyVal.obj fs []) = true) :
    ∃ ks, newValue (CtyVal.obj fs []) o = some (Value.objV o ks) ∧
      asValueMapEntries ks = fs := by
  rw [pureRaw, Bool.and_eq_true, Bool.and_eq_true] at h
  obtain ⟨⟨-, hnd⟩, hfs⟩ := h
  obtain ⟨ks, hset, hmap⟩ := setFromCtyValues_roundTrip fs o [] hfs
    (by simpa using hnd) (fun _ _ => rfl)
  refine ⟨ks, ?_, ?_⟩
  · simp only [newValue, hset]
  · simpa [asValueMapEntries] using hmap

theorem newValue_asValueMap_roundTrip_witness :
    pureRaw (CtyVal.obj [("a", CtyVal.scalar "1" []),
      ("b", CtyVal.obj [("c", CtyVal.scalar "2" [])] [])] []) = true ∧
    ∃ ks, newValue (CtyVal.obj [("a", CtyVal.scalar "1" []),
        ("b", CtyVal.obj [("c", CtyVal.scalar "2" [])] [])] []) "org" =
        some (Value.objV "org" ks) ∧
      asValueMapEntries ks = [("a", CtyVal.scalar "1" []),
        ("b", CtyVal.obj [("c", CtyVal.scalar "2" [])] [])] :=
  ⟨by decide, newValue_asValueMap_roundTrip _ "org" (by decide)⟩

/-- C5: for every `Object` and non-empty path, `GetKeyPath` returns
not-found exactly when some key on the path is absent at its level or
some non-terminal key maps to a `Scalar` (the relation `Misses`), and
otherwise returns exactly the value reached by consuming the keys one at
a time (the relation `Reaches`); being a pure function of the `Keys`
map, it never mutates the tree. -/
theorem getKeyPath_found_iff_reaches
    (keys : List (String × Value)) (path : List String) (hne : path ≠ []) :
    (getKeyPath keys path = none ↔ Misses keys path) ∧
    (∀ w, getKeyPath keys path = some w ↔ Reaches keys path w) :=
  getKeyPath_characterization path keys hne

theorem getKeyPath_found_iff_reaches_witness :
    (["a", "b"] : List String) ≠ [] ∧
    ((getKeyPath [("a", Value.objV "o" [("b", Value.ctyV "o" (CtyVal.scalar "1" []))])]
        ["a", "b"] = none ↔
      Misses [("a", Value.objV "o" [("b", Value.ctyV "o" (CtyVal.scalar "1" []))])]
        ["a", "b"]) ∧
     (∀ w, getKeyPath [("a", Value.objV "o" [("b", Value.ctyV "o" (CtyVal.scalar "1" []))])]
        ["a", "b"] = some w ↔
      Reaches [("a", Value.objV "o" [("b", Value.ctyV "o" (CtyVal.scalar "1" []))])]
        ["a", "b"] w)) :=
  ⟨by decide, getKeyPath_found_iff_reaches _ ["a", "b"] (by decide)⟩

/-- C6: appending a `DiagnosticList` holding `[c, d]` to one holding
`[a, b]` splices the elements in individually and positionally:
`Errors()` is `[a, b, c, d]`, flattened with both internal orders
preserved. -/
theorem append_list_flattens (a b c d : AtomicErr) :
    ((Lmk [some a, some b]).append
      (.list (Lmk [some c, some d]))).errorsOf = [a, b, c, d] := rfl

/-- C7: a `DiagnosticList` holding no errors — including one built only
from `nil` arguments and appended only `nil` — has `AsError() = nil`,
`Error() = ""` and `Detailed() = ""`; a non-empty list's `AsError()` is
non-nil and represents the whole list. -/
theorem emptyList_error_representations (l : DiagnosticList) :
    (l.errs = [] → l.asError = none ∧ l.errorLine = "" ∧ l.detailed = "") ∧
    (l.errs ≠ [] → l.asError = some l) ∧
    ((Lmk [none, none]).append .nilArg).errs = [] := by
  obtain ⟨es⟩ := l
  refine ⟨?_, ?_, rfl⟩
  · intro h
    cases h
    exact ⟨rfl, rfl, rfl⟩
  · intro h
    cases es with
    | nil => exact absurd rfl h
    | cons e tl => rfl

theorem emptyList_error_representations_witness :
    ((Lmk []).asError = none ∧ (Lmk []).errorLine = "" ∧
      (Lmk []).detailed = "") ∧
    (Lmk [some ⟨"x", none⟩]).asError = some (Lmk [some ⟨"x", none⟩]) :=
  ⟨(emptyList_error_representations (Lmk [])).1 rfl,
   (emptyList_error_representations (Lmk [some ⟨"x", none⟩])).2.1 (by decide)⟩

/-- C8 (amended): the provenance attachment is reversible for any value
that carries no marks yet — `NewCtyValue(v, o).Raw()` returns `v`
itself, and `Raw` is total.  (For a value that already carries marks,
`Raw` strips those marks too, so the result differs from the original
exactly in its top-level marks; see the counterexample.) -/
theorem newCtyValue_raw_roundTrip (v : CtyVal) (o : ProjPath)
    (h : v.topMarks = []) : ctyValueRaw (newCtyValue v o) = some v := by
  cases v <;>
    simp_all [CtyVal.topMarks, newCtyValue, CtyVal.mark, ctyValueRaw,
      CtyVal.unmark]

theorem newCtyValue_raw_roundTrip_witness :
    (CtyVal.scalar "a" []).topMarks = [] ∧
    ctyValueRaw (newCtyValue (CtyVal.scalar "a" []) "og") =
      some (CtyVal.scalar "a" []) :=
  ⟨rfl, newCtyValue_raw_roundTrip _ "og" rfl⟩

/-- C8 counterexample to the claim as stated: for a value that already
carries a mark, `NewCtyValue(v, o).Raw()` is not `v` — `Unmark` strips
*all* top-level marks, so the pre-existing mark `"m"` is lost. -/
theorem newCtyValue_raw_not_inverse_on_marked :
    ctyValueRaw (newCtyValue (CtyVal.scalar "s" ["m"]) "o") =
      some (CtyVal.scalar "s" []) ∧
    some (CtyVal.scalar "s" []) ≠ some (CtyVal.scalar "s" ["m"]) := by
  refine ⟨rfl, ?_⟩
  intro h
  injection h with h1
  injection h1 with h2 h3
  exact List.noConfusion h3

/-- C9: `SetFrom` panics (modelled as `none`) precisely when some key of
the mapping already exists in the `Object`; when all keys are fresh it
returns the receiver with every entry inserted and everything else
untouched. -/
theorem setFrom_panic_iff_existing_key (vals keys : List (String × Value))
    (hnd : (vals.map Prod.fst).Nodup) :
    (setFrom keys vals = none ↔ ∃ kv ∈ vals, lookupKeys keys kv.1 ≠ none) ∧
    ((∀ kv ∈ vals, lookupKeys keys kv.1 = none) →
      ∃ r, setFrom keys vals = some r ∧
        (∀ kv ∈ vals, lookupKeys r kv.1 = some kv.2) ∧
        (∀ key, key ∉ vals.map Prod.fst →
          lookupKeys r key = lookupKeys keys key)) :=
  setFrom_spec vals keys hnd

theorem setFrom_panic_iff_existing_key_witness :
    ((([("a", Value.ctyV "o" (CtyVal.scalar "1" []))] :
        List (String × Value)).map Prod.fst).Nodup) ∧
    ((setFrom [] [("a", Value.ctyV "o" (CtyVal.scalar "1" []))] = none ↔
      ∃ kv ∈ [("a", Value.ctyV "o" (CtyVal.scalar "1" []))],
        lookupKeys [] kv.1 ≠ none) ∧
     ((∀ kv ∈ [("a", Value.ctyV "o" (CtyVal.scalar "1" []))],
        lookupKeys [] kv.1 = none) →
      ∃ r, setFrom [] [("a", Value.ctyV "o" (CtyVal.scalar "1" []))] = some r ∧
        (∀ kv ∈ [("a", Value.ctyV "o" (CtyVal.scalar "1" []))],
          lookupKeys r kv.1 = some kv.2) ∧
        (∀ key, key ∉ ([("a", Value.ctyV "o" (CtyVal.scalar "1" []))] :
            List (String × Value)).map Prod.fst →
          lookupKeys r key = lookupKeys [] key))) :=
  ⟨by decide, setFrom_panic_iff_existing_key _ [] (by decide)⟩

/-- C10: `NewValue` (and therefore each entry step of
`SetFromCtyValues`) faults — `AsValueMap` panics, modelled as `none` —
on a raw value whose type is an object type but whose value is null or
unknown; no `Value` is produced. -/
theorem newValue_faults_on_null_or_unknown_object (v : CtyVal) (o : ProjPath)
    (hobj : v.isObjectType = true)
    (h : v.isNull = true ∨ v.isKnown = false) :
    v.asValueMap = none ∧ newValue v o = none ∧
    ∀ (keys : List (String × Value)) (k : String),
      setFromCtyValues keys [(k, v)] o = none := by
  cases v with
  | scalar s m => exact absurd hobj (by simp [CtyVal.isObjectType])
  | obj fs m =>
    rcases h with h | h <;> simp [CtyVal.isNull, CtyVal.isKnown] at h
  | nullObj m => exact ⟨rfl, rfl, fun keys k => rfl⟩
  | unknownObj m => exact ⟨rfl, rfl, fun keys k => rfl⟩

theorem newValue_faults_on_null_or_unknown_object_witness :
    (CtyVal.nullObj []).isObjectType = true ∧
    ((CtyVal.nullObj []).isNull = true ∨ (CtyVal.nullObj []).isKnown = false) ∧
    ((CtyVal.nullObj []).asValueMap = none ∧
     newValue (CtyVal.nullObj []) "o" = none ∧
     ∀ (keys : List (String × Value)) (k : String),
       setFromCtyValues keys [(k, CtyVal.nullObj [])] "o" = none) :=
  ⟨rfl, Or.inl rfl,
    newValue_faults_on_null_or_unknown_object (CtyVal.nullObj []) "o" rfl
      (Or.inl rfl)⟩
